import Mathlib

/-!
Verification of the prescription-text extraction parser.

The parser (`parse_medicine_details` together with `is_likely_phone_number`)
is embedded shallowly over `List Char`.  The embedding models Python string
and regex semantics over ASCII text: `str.strip`, `str.lower`, `str.split`,
substring tests, and the handful of fixed regular expressions used by the
source, each realised as an executable matcher with Python search semantics
(leftmost start position, greedy quantifiers, word boundaries over the ASCII
word-character class).  A raised exception is modelled as `Option.none`.
-/

/-- ASCII decimal digit, the model of the regex class backslash-d. -/
def isDigitC (c : Char) : Bool := 48 ≤ c.toNat && c.toNat ≤ 57

/-- ASCII uppercase letter, the model of the regex class A-Z. -/
def isUpperC (c : Char) : Bool := 65 ≤ c.toNat && c.toNat ≤ 90

/-- ASCII lowercase letter. -/
def isLowerC (c : Char) : Bool := 97 ≤ c.toNat && c.toNat ≤ 122

/-- ASCII letter. -/
def isAlphaC (c : Char) : Bool := isUpperC c || isLowerC c

/-- Python whitespace (ASCII fragment): space, tab, newline, carriage
return, vertical tab, form feed.  Models both `str.strip` and the regex
class backslash-s. -/
def isPySpace (c : Char) : Bool :=
  c.toNat = 32 || c.toNat = 9 || c.toNat = 10 || c.toNat = 13 ||
  c.toNat = 11 || c.toNat = 12

/-- Regex word character (ASCII fragment): letter, digit or underscore.
Word boundaries are decided against this class. -/
def isWordC (c : Char) : Bool :=
  isDigitC c || isUpperC c || isLowerC c || c.toNat = 95

/-- ASCII lowercasing, the model of `str.lower` on the texts involved. -/
def toLowerC (c : Char) : Char :=
  if isUpperC c then Char.ofNat (c.toNat + 32) else c

/-- Lowercase a character list. -/
def lowerL (l : List Char) : List Char := l.map toLowerC

/-- Does the first list occur as a prefix of the second one. -/
def startsWithL : List Char → List Char → Bool
  | [], _ => true
  | _ :: _, [] => false
  | a :: as, b :: bs => a = b && startsWithL as bs

/-- Python substring test `needle in hay`. -/
def containsL (needle : List Char) : List Char → Bool
  | [] => startsWithL needle []
  | c :: t => startsWithL needle (c :: t) || containsL needle t

/-- Python `str.endswith`. -/
def endsWithL (needle hay : List Char) : Bool :=
  startsWithL needle.reverse hay.reverse

/-- Drop leading regex whitespace, used for greedy `backslash-s star`. -/
def dropSpaces (l : List Char) : List Char := l.dropWhile isPySpace

/-- Python `str.strip`: drop leading and trailing whitespace. -/
def pyStripL (l : List Char) : List Char :=
  ((l.dropWhile isPySpace).reverse.dropWhile isPySpace).reverse

/-- Python `text.split` on a newline separator. -/
def splitNlL : List Char → List (List Char)
  | [] => [[]]
  | c :: r =>
    if c = '\n' then [] :: splitNlL r
    else
      match splitNlL r with
      | p :: ps => (c :: p) :: ps
      | [] => [[c]]

/-- A word boundary holds at the end of a match when the following text is
empty or starts with a non-word character. -/
def boundaryOkB : List Char → Bool
  | [] => true
  | c :: _ => !isWordC c

/-- The sole output entity of the parser. -/
structure MedicineRecord where
  name : String
  dosage : String
  frequency : String
deriving DecidableEq, Repr

/-- Loop state of `parse_medicine_details`: the pending medicine name and
the records emitted so far. -/
structure PState where
  pending : Option String
  recs : List MedicineRecord
deriving DecidableEq, Repr

/-- The dosage-unit keyword list of the source, in its order. -/
def dosageUnits : List (List Char) :=
  ["mg".data, "ml".data, "g".data, "mcg".data, "tablet".data,
   "capsule".data, "spoon".data, "drops".data, "puff".data]

/-- The frequency keyword list of the source, in its order. -/
def freqKws : List (List Char) :=
  ["daily".data, "once a day".data, "twice a day".data, "thrice a day".data,
   "times a day".data, "bd".data, "tds".data, "qid".data, "od".data,
   "hs".data, "sos".data, "prn".data, "before food".data, "after food".data,
   "morning".data, "noon".data, "evening".data, "night".data,
   "alternate day".data, "weekly".data]

/-- The literal default field value of the source. -/
def notSpecified : List Char := "Not specified".data

/-- The fallback record of the source. -/
def sentinelRec : MedicineRecord :=
  ⟨"Could not parse medicine details", "", ""⟩

/-- Consume an optional single occurrence of a given character, returning
every possible rest (regex `token?`). -/
def afterOptChar (t : Char) : List Char → List (List Char)
  | [] => [[]]
  | c :: r => if c = t then [r, c :: r] else [c :: r]

/-- Separator character of the phone pattern class: hyphen, dot or
whitespace. -/
def isSepC (c : Char) : Bool := c = '-' || c = '.' || isPySpace c

/-- Consume an optional single separator, returning every possible rest. -/
def afterOptSep : List Char → List (List Char)
  | [] => [[]]
  | c :: r => if isSepC c then [r, c :: r] else [c :: r]

/-- Consume exactly `n` digits. -/
def exactDigits : Nat → List Char → Option (List Char)
  | 0, cs => some cs
  | _ + 1, [] => none
  | n + 1, c :: r => if isDigitC c then exactDigits n r else none

/-- Rests after consuming one, two or three digits (regex `d{1,3}`). -/
def digits1to3 (cs : List Char) : List (List Char) :=
  [1, 2, 3].filterMap (fun n => exactDigits n cs)

/-- Rests after the optional country-code group of the phone pattern:
an optional plus sign, one to three digits and an optional separator, the
whole group itself optional. -/
def ccOptions (cs : List Char) : List (List Char) :=
  cs :: ((afterOptChar '+' cs).flatMap fun a =>
    (digits1to3 a).flatMap fun b => afterOptSep b)

/-- Match, at the current position, the mandatory tail of the phone
pattern: optional opening parenthesis, three digits, optional closing
parenthesis, optional separator, three digits, optional separator, four
digits, final word boundary. -/
def phoneTailAt (cs : List Char) : Bool :=
  (afterOptChar '(' cs).any fun a =>
    match exactDigits 3 a with
    | none => false
    | some b =>
      (afterOptChar ')' b).any fun c =>
        (afterOptSep c).any fun d =>
          match exactDigits 3 d with
          | none => false
          | some e =>
            (afterOptSep e).any fun f =>
              match exactDigits 4 f with
              | none => false
              | some g => boundaryOkB g

/-- Match the full phone pattern starting at the current position. -/
def phoneMatchAt (cs : List Char) : Bool :=
  (ccOptions cs).any phoneTailAt

/-- Search the phone pattern at every start position (`re.search`). -/
def phoneSearch : List Char → Bool
  | [] => phoneMatchAt []
  | c :: r => phoneMatchAt (c :: r) || phoneSearch r

/-- Embedding of `is_likely_phone_number` from the source. -/
def is_likely_phone_number (s : String) : Bool :=
  phoneSearch s.data

/-- Characters stripped from a candidate medicine name by the source. -/
def punctChars : List Char := ['!', '@', '#', '$', '%', '^', '&', '*', '(', ')']

/-- Remove the noise punctuation characters anywhere in the line. -/
def removePunct (l : List Char) : List Char :=
  l.filter (fun c => !punctChars.contains c)

/-- Character class of the name-line pattern after its first character:
letters, digits, whitespace, hyphen, dot, exclamation mark. -/
def nameClassChar (c : Char) : Bool :=
  isAlphaC c || isDigitC c || isPySpace c || c = '-' || c = '.' || c = '!'

/-- Embedding of the anchored name-line pattern: an uppercase letter
followed by one or more characters of the name class, consuming the whole
line. -/
def nameShape : List Char → Bool
  | [] => false
  | c :: rest => isUpperC c && !rest.isEmpty && rest.all nameClassChar

/-- Match, at the current position, one trailing-dosage fragment of the
name-cleanup pattern: optional whitespace, digits, an optional decimal
fraction, optional whitespace, the unit (case-insensitively), final word
boundary.  Returns the rest after the match.  Greedy quantifiers are
forced here: the whitespace, digit and fraction runs are maximal since a
shorter choice would place a character of a disjoint class next. -/
def matchFragAt (unit : List Char) (cs : List Char) : Option (List Char) :=
  let s1 := dropSpaces cs
  let d := s1.takeWhile isDigitC
  if d.isEmpty then none
  else
    let rest1 := s1.dropWhile isDigitC
    let afterNum :=
      match rest1 with
      | '.' :: r2 =>
        let f := r2.takeWhile isDigitC
        if f.isEmpty then none else some (r2.dropWhile isDigitC)
      | _ => some rest1
    match afterNum with
    | none => none
    | some rest2 =>
      let s2 := dropSpaces rest2
      if startsWithL unit (lowerL (s2.take unit.length)) &&
          boundaryOkB (s2.drop unit.length) then
        some (s2.drop unit.length)
      else none

/-- One pass of `re.sub` with the trailing-dosage fragment pattern:
scan left to right, drop each match, keep other characters.  The fuel is
the length of the list; every step consumes at least one character. -/
def subAux (unit : List Char) : Nat → List Char → List Char
  | _, [] => []
  | 0, cs => cs
  | n + 1, c :: r =>
    match matchFragAt unit (c :: r) with
    | some rest => subAux unit n rest
    | none => c :: subAux unit n r

/-- Replace every trailing-dosage fragment match by the empty string. -/
def subUnitAll (unit : List Char) (l : List Char) : List Char :=
  subAux unit l.length l

/-- Derive the stored medicine name from a classified name line: strip the
noise punctuation, trim, and if the result ends with a space and a dosage
unit, remove every number-unit fragment and trim again; the first unit in
keyword order wins. -/
def nameClean (l : List Char) : List Char :=
  let n1 := pyStripL (removePunct l)
  match dosageUnits.find? (fun u => endsWithL (' ' :: u) (lowerL n1)) with
  | some u => pyStripL (subUnitAll u n1)
  | none => n1

/-- Match the number pattern at the current position (the caller has
already checked the leading word boundary and that the head is a digit):
maximal digits, an optional greedy decimal fraction, and a trailing word
boundary.  When the fraction is present but the boundary after it fails,
the regex backtracks to the fraction-free reading, whose boundary at the
dot always holds.  Returns the full captured number, the fraction capture
and the rest. -/
def numAt (cs : List Char) : Option (List Char × Option (List Char) × List Char) :=
  let d := cs.takeWhile isDigitC
  if d.isEmpty then none
  else
    let rest1 := cs.dropWhile isDigitC
    match rest1 with
    | '.' :: r2 =>
      let f := r2.takeWhile isDigitC
      if f.isEmpty then some (d, none, rest1)
      else
        let rest2 := r2.dropWhile isDigitC
        if boundaryOkB rest2 then some (d ++ '.' :: f, some ('.' :: f), rest2)
        else some (d, none, rest1)
    | _ => if boundaryOkB rest1 then some (d, none, rest1) else none

/-- Leftmost search of the bare number pattern; `prevW` tells whether the
previous character was a word character, deciding the leading boundary. -/
def numSearchAux (prevW : Bool) : List Char → Option (List Char × Option (List Char))
  | [] => none
  | c :: r =>
    if !prevW && isDigitC c then
      match numAt (c :: r) with
      | some (g1, g2, _) => some (g1, g2)
      | none => numSearchAux (isWordC c) r
    else numSearchAux (isWordC c) r

/-- Search for the first word-bounded number in the line. -/
def numSearch (cs : List Char) : Option (List Char × Option (List Char)) :=
  numSearchAux false cs

/-- Match a dosage unit at the current position; the unit list is
prefix-free, so at most one alternative can match the text.  When `tailB`
is set a trailing word boundary is required (first branch of the dosage
pattern); the second branch has no boundary after its unit. -/
def unitAltAt (tailB : Bool) (cs : List Char) : Option (List Char) :=
  match dosageUnits.find? (fun u =>
      startsWithL u cs && (!tailB || boundaryOkB (cs.drop u.length))) with
  | some u => some (cs.drop u.length)
  | none => none

/-- Match the first branch of the dosage pattern at the current position:
a word-bounded number, whitespace, a unit, a word boundary.  Returns the
two capture groups the source reads: the full number and its fraction. -/
def doseBranch1At (cs : List Char) : Option (Option (List Char × List Char)) :=
  match numAt cs with
  | none => none
  | some (g1, g2, rest) =>
    match unitAltAt true (dropSpaces rest) with
    | some _ =>
      match g2 with
      | some f => some (some (g1, f))
      | none => some none
    | none => none

/-- Match the second branch of the dosage pattern at the current position:
a word-bounded unit, whitespace, a word-bounded number.  The source never
reads its captures (it tests the other branch's unit group), so only
success is reported. -/
def doseBranch2At (cs : List Char) : Option Unit :=
  match unitAltAt false cs with
  | none => none
  | some rest =>
    let sp := rest.takeWhile isPySpace
    if sp.isEmpty then none
    else
      match numAt (dropSpaces rest) with
      | some _ => some ()
      | none => none

/-- Leftmost search of the two-branch dosage pattern.  At each position
the first branch is tried before the second.  The outer `some` means a
match was found; the inner value is the pair the source formats, present
only when the first branch matched a number with a decimal fraction. -/
def dosePrimAux (prevW : Bool) : List Char → Option (Option (List Char × List Char))
  | [] => none
  | c :: r =>
    match (if !prevW && isDigitC c then doseBranch1At (c :: r) else none) with
    | some out => some out
    | none =>
      match (if !prevW && isWordC c then doseBranch2At (c :: r) else none) with
      | some _ => some none
      | none => dosePrimAux (isWordC c) r

/-- Search the dosage pattern over the lowered line. -/
def dosePrim (cs : List Char) : Option (Option (List Char × List Char)) :=
  dosePrimAux false cs

/-- Embedding of the dosage extraction of the source, for a detail line.
`pt` is the truthiness of the pending medicine name.  Because the group
indices the source reads are shifted by the inner group of the number
pattern, the primary pattern only ever assigns when its first branch
matched a fractional number, and then joins the number with its own
fraction. -/
def dosageOf (pt : Bool) (lw : List Char) : List Char :=
  match dosePrim lw with
  | some (some (g1, g2)) => g1 ++ ' ' :: g2
  | some none => notSpecified
  | none =>
    match numSearch lw with
    | some (g1, _) =>
      if pt || containsL "tablet".data lw || containsL "cap".data lw then
        g1 ++ (if containsL "tablet".data lw then " tablet(s)".data
               else if containsL "cap".data lw then " capsule(s)".data
               else [])
      else notSpecified
    | none => notSpecified

/-- Match the hyphen triplet pattern at the current position: digits,
optional spaces, hyphen, optional spaces, digits, again, and a final word
boundary.  All digit and space runs are maximal; a shorter choice puts a
character of a disjoint class next, so greediness is forced. -/
def xyzAt (cs : List Char) : Option (List Char × List Char × List Char) :=
  let d1 := cs.takeWhile isDigitC
  if d1.isEmpty then none
  else
    match dropSpaces (cs.dropWhile isDigitC) with
    | '-' :: r2 =>
      let s2 := dropSpaces r2
      let d2 := s2.takeWhile isDigitC
      if d2.isEmpty then none
      else
        match dropSpaces (s2.dropWhile isDigitC) with
        | '-' :: r4 =>
          let s4 := dropSpaces r4
          let d3 := s4.takeWhile isDigitC
          if d3.isEmpty then none
          else if boundaryOkB (s4.dropWhile isDigitC) then some (d1, d2, d3)
          else none
        | _ => none
    | _ => none

/-- Leftmost search of the triplet pattern. -/
def xyzAux (prevW : Bool) : List Char → Option (List Char × List Char × List Char)
  | [] => none
  | c :: r =>
    if !prevW && isDigitC c then
      match xyzAt (c :: r) with
      | some t => some t
      | none => xyzAux (isWordC c) r
    else xyzAux (isWordC c) r

/-- Search the triplet pattern over the lowered line. -/
def xyzScan (cs : List Char) : Option (List Char × List Char × List Char) :=
  xyzAux false cs

/-- Match the flexible times-a-day alternative at the current position:
the literal `times`, optional spaces, an optional `a`, optional spaces,
the literal `day`. -/
def timesAltAt (cs : List Char) : Bool :=
  startsWithL "times".data cs &&
    (let r1 := dropSpaces (cs.drop 5)
     (match r1 with
      | 'a' :: r2 => startsWithL "day".data (dropSpaces r2) || startsWithL "day".data r1
      | _ => startsWithL "day".data r1))

/-- Leftmost search of the per-keyword frequency pattern: a word-bounded
number, whitespace, then the keyword or the times-a-day phrase.  Reports
whether the matched number carried a decimal fraction, which is all the
source's crashing test can depend on. -/
def freqNumAux (kw : List Char) (prevW : Bool) : List Char → Option Bool
  | [] => none
  | c :: r =>
    if !prevW && isDigitC c then
      match numAt (c :: r) with
      | some (_, g2, rest) =>
        let s2 := dropSpaces rest
        if startsWithL kw s2 || timesAltAt s2 then some g2.isSome
        else freqNumAux kw (isWordC c) r
      | none => freqNumAux kw (isWordC c) r
    else freqNumAux kw (isWordC c) r

/-- Embedding of the frequency keyword scan.  For each keyword in order:
if the number-plus-keyword pattern matches and the number has no decimal
fraction, the source evaluates a substring test on `None` and raises a
`TypeError`, modelled as `none`; with a fraction the test is false and the
scan falls through to the bare containment test, which sets the keyword
and stops.  If no keyword ever fires the default survives. -/
def freqScanKw : List (List Char) → List Char → Option (List Char)
  | [], _ => some notSpecified
  | kw :: rest, lw =>
    match freqNumAux kw false lw with
    | some hasFrac =>
      if hasFrac then
        if containsL kw lw then some kw else freqScanKw rest lw
      else none
    | none =>
      if containsL kw lw then some kw else freqScanKw rest lw

/-- Embedding of the frequency extraction: the triplet pattern first,
then the keyword scan. -/
def frequencyOf (lw : List Char) : Option (List Char) :=
  match xyzScan lw with
  | some (a, b, c) =>
    some ("Morning: ".data ++ a ++ ", Afternoon: ".data ++ b ++
          ", Night: ".data ++ c)
  | none => freqScanKw freqKws lw

/-- Python truthiness of the pending name: `None` and the empty string
are falsy. -/
def pendingTruthy : Option String → Bool
  | none => false
  | some s => !s.data.isEmpty

/-- Name-line classification of the source: the anchored shape matches
and no frequency keyword occurs in the lowered line. -/
def isNameLineB (line lw : List Char) : Bool :=
  nameShape line && !(freqKws.any (fun kw => containsL kw lw))

/-- Process one raw line of the input, the body of the source's loop. -/
def stepLine (st : PState) (raw : String) : Option PState :=
  let line := pyStripL raw.data
  if line.isEmpty then some st
  else if phoneSearch line then some st
  else
    let lw := lowerL line
    if isNameLineB line lw then
      some ⟨some (String.mk (nameClean line)), st.recs⟩
    else
      let pt := pendingTruthy st.pending
      let dosage := dosageOf pt lw
      match frequencyOf lw with
      | none => none
      | some freq =>
        if pt then
          some ⟨none,
            st.recs ++
              [⟨String.mk (pyStripL (st.pending.getD "").data),
                String.mk (pyStripL dosage),
                String.mk (pyStripL freq)⟩]⟩
        else some ⟨st.pending, st.recs⟩

/-- Fold the loop body over the lines. -/
def processL : PState → List String → Option PState
  | st, [] => some st
  | st, l :: ls =>
    match stepLine st l with
    | none => none
    | some st' => processL st' ls

/-- The initial loop state. -/
def initState : PState := ⟨none, []⟩

/-- The line sequence the source iterates over. -/
def linesOf (t : String) : List String :=
  (splitNlL t.data).map String.mk

/-- Embedding of `parse_medicine_details`: run the loop, then apply the
sentinel fallback when no record was produced and the stripped text is
non-empty.  A raised exception is `none`. -/
def parse_medicine_details (t : String) : Option (List MedicineRecord) :=
  match processL initState (linesOf t) with
  | none => none
  | some st =>
    if st.recs.isEmpty && !(pyStripL t.data).isEmpty then some [sentinelRec]
    else some st.recs

/-- An optional single occurrence of a fixed character, as consumed text. -/
def OptTok (t : Char) (s : List Char) : Prop := s = [] ∨ s = [t]

/-- An optional single separator, as consumed text. -/
def SepOptP (s : List Char) : Prop := s = [] ∨ ∃ c, s = [c] ∧ isSepC c = true

/-- A group of exactly `n` digits. -/
def GrpP (n : Nat) (d : List Char) : Prop :=
  d.length = n ∧ ∀ c ∈ d, isDigitC c = true

/-- A word boundary holds before the remaining text. -/
def BoundaryP (g : List Char) : Prop :=
  g = [] ∨ ∃ c r, g = c :: r ∧ isWordC c = false

/-- The optional country-code part of the phone shape: an optional plus
sign, one to three digits, an optional separator; or nothing at all. -/
def CCPartP (cc : List Char) : Prop :=
  cc = [] ∨ ∃ pl d sp, OptTok '+' pl ∧ 1 ≤ d.length ∧ d.length ≤ 3 ∧
    (∀ c ∈ d, isDigitC c = true) ∧ SepOptP sp ∧ cc = pl ++ (d ++ sp)

/-- The mandatory tail of the phone shape, as consumed from the current
position: optional opening parenthesis, three digits, optional closing
parenthesis, optional separator, three digits, optional separator, four
digits, and a final word boundary. -/
def TailAtP (cs : List Char) : Prop :=
  ∃ op r1, OptTok '(' op ∧ cs = op ++ r1 ∧
  ∃ g1 r2, GrpP 3 g1 ∧ r1 = g1 ++ r2 ∧
  ∃ cp r3, OptTok ')' cp ∧ r2 = cp ++ r3 ∧
  ∃ s1 r4, SepOptP s1 ∧ r3 = s1 ++ r4 ∧
  ∃ g2 r5, GrpP 3 g2 ∧ r4 = g2 ++ r5 ∧
  ∃ s2 r6, SepOptP s2 ∧ r5 = s2 ++ r6 ∧
  ∃ g3 rest, GrpP 4 g3 ∧ r6 = g3 ++ rest ∧ BoundaryP rest

/-- The full phone shape starting at the current position. -/
def PhoneAtP (cs : List Char) : Prop :=
  ∃ cc r, CCPartP cc ∧ cs = cc ++ r ∧ TailAtP r

/-- The line contains the phone shape somewhere, with the final word
boundary.  This is the amended reading of the specification's phone-shape
sentence, faithful to the search semantics of the source. -/
def ContainsPhoneShape (cs : List Char) : Prop :=
  ∃ pre suf, cs = pre ++ suf ∧ PhoneAtP suf

/-- The phone shape exactly as the specification words it, with no final
word boundary: an optional country code, three digit groups of sizes
three, three and four, single optional separators, optional parentheses
around the first group, occurring anywhere in the line. -/
def ContainsPhoneShapeNoB (cs : List Char) : Prop :=
  ∃ pre cc op g1 cp s1 g2 s2 g3 rest,
    CCPartP cc ∧ OptTok '(' op ∧ GrpP 3 g1 ∧ OptTok ')' cp ∧ SepOptP s1 ∧
    GrpP 3 g2 ∧ SepOptP s2 ∧ GrpP 4 g3 ∧
    cs = pre ++ (cc ++ (op ++ (g1 ++ (cp ++ (s1 ++ (g2 ++ (s2 ++ (g3 ++ rest))))))))

/-- A bare run of three digits, three digits and four digits with single
optional separators between the groups, followed by a word boundary,
starting at the current position. -/
def Run334P (cs : List Char) : Prop :=
  ∃ g1 s1 g2 s2 g3 rest, GrpP 3 g1 ∧ SepOptP s1 ∧ GrpP 3 g2 ∧ SepOptP s2 ∧
    GrpP 4 g3 ∧ BoundaryP rest ∧
    cs = g1 ++ (s1 ++ (g2 ++ (s2 ++ (g3 ++ rest))))

/-- The line contains the bounded three-three-four digit run somewhere. -/
def ContainsRun334 (cs : List Char) : Prop :=
  ∃ pre suf, cs = pre ++ suf ∧ Run334P suf

/-- The three-three-four digit run exactly as the claim words it, with no
trailing word boundary requirement. -/
def ContainsRun334NoB (cs : List Char) : Prop :=
  ∃ pre g1 s1 g2 s2 g3 rest, GrpP 3 g1 ∧ SepOptP s1 ∧ GrpP 3 g2 ∧
    SepOptP s2 ∧ GrpP 4 g3 ∧
    cs = pre ++ (g1 ++ (s1 ++ (g2 ++ (s2 ++ (g3 ++ rest)))))

/-- Well-formedness of an emitted genuine record: both the name and the
dosage are non-empty text. -/
def RecOK (r : MedicineRecord) : Prop := r.name ≠ "" ∧ r.dosage ≠ ""

/-- A character list with a non-whitespace head. -/
def headNS (l : List Char) : Prop :=
  ∃ c t, l = c :: t ∧ isPySpace c = false

/-- Loop-state invariant: every emitted record is well formed and any
pending name starts with a non-whitespace character. -/
def StOK (st : PState) : Prop :=
  (∀ r ∈ st.recs, RecOK r) ∧ ∀ nm, st.pending = some nm → headNS nm.data

theorem digit_not_space {c : Char} (h : isDigitC c = true) : isPySpace c = false := by
  simp only [isDigitC, Bool.and_eq_true, decide_eq_true_eq] at h
  simp only [isPySpace, Bool.or_eq_false_iff, decide_eq_false_iff_not]
  omega

theorem upper_not_space {c : Char} (h : isUpperC c = true) : isPySpace c = false := by
  simp only [isUpperC, Bool.and_eq_true, decide_eq_true_eq] at h
  simp only [isPySpace, Bool.or_eq_false_iff, decide_eq_false_iff_not]
  omega

theorem upper_not_digit {c : Char} (h : isUpperC c = true) : isDigitC c = false := by
  simp only [isUpperC, Bool.and_eq_true, decide_eq_true_eq] at h
  simp only [isDigitC, Bool.and_eq_false_iff, decide_eq_false_iff_not]
  omega

theorem upper_not_punct {c : Char} (h : isUpperC c = true) : punctChars.contains c = false := by
  cases hq : punctChars.contains c with
  | false => rfl
  | true =>
    exfalso
    have hm : c ∈ punctChars := by simpa using hq
    fin_cases hm <;> revert h <;> decide

theorem string_mk_ne_empty {x : List Char} (h : x ≠ []) : String.mk x ≠ "" := by
  intro he
  exact h (congrArg String.data he)

theorem dropWhile_append_singleton {L : List Char} {c : Char} (h : isPySpace c = false) :
    (L ++ [c]).dropWhile isPySpace = L.dropWhile isPySpace ++ [c] := by
  induction L with
  | nil => simp [List.dropWhile, h]
  | cons x L ih =>
    by_cases hx : isPySpace x
    · simp [List.dropWhile_cons, hx, ih]
    · simp [List.dropWhile_cons, hx]

theorem pyStripL_cons_head {c : Char} {xs : List Char} (h : isPySpace c = false) :
    pyStripL (c :: xs) = c :: (xs.reverse.dropWhile isPySpace).reverse := by
  unfold pyStripL
  rw [List.dropWhile_cons_of_neg (by simp [h]), List.reverse_cons,
      dropWhile_append_singleton h, List.reverse_append]
  simp

theorem pyStripL_ne_nil_of_headNS {l : List Char} (h : headNS l) : pyStripL l ≠ [] := by
  obtain ⟨c, t, rfl, hc⟩ := h
  rw [pyStripL_cons_head hc]
  simp

theorem pyStripL_eq_nil_of_all_space {l : List Char}
    (h : ∀ c ∈ l, isPySpace c = true) : pyStripL l = [] := by
  unfold pyStripL
  rw [List.dropWhile_eq_nil_iff.mpr (fun x hx => h x hx)]
  rfl

theorem pyStripL_noop {l : List Char}
    (h1 : ∃ c t, l = c :: t ∧ isPySpace c = false)
    (h2 : ∃ c t, l.reverse = c :: t ∧ isPySpace c = false) : pyStripL l = l := by
  obtain ⟨c, t, he, hc⟩ := h1
  obtain ⟨d, u, hre, hd⟩ := h2
  unfold pyStripL
  rw [he, List.dropWhile_cons_of_neg (by simp [hc]), ← he, hre,
      List.dropWhile_cons_of_neg (by simp [hd]), ← hre, List.reverse_reverse]

theorem splitNlL_ne_nil (l : List Char) : splitNlL l ≠ [] := by
  induction l with
  | nil => simp [splitNlL]
  | cons c r ih =>
    by_cases hc : c = '\n'
    · simp [splitNlL, hc]
    · unfold splitNlL
      rw [if_neg hc]
      cases hs : splitNlL r <;> simp

theorem mem_splitNlL_subset {l p : List Char} (hp : p ∈ splitNlL l) :
    ∀ c ∈ p, c ∈ l := by
  induction l generalizing p with
  | nil =>
    simp [splitNlL] at hp
    subst hp
    simp
  | cons x r ih =>
    by_cases hx : x = '\n'
    · subst hx
      have hp' : p = [] ∨ p ∈ splitNlL r := by
        simpa [splitNlL] using hp
      rcases hp' with rfl | hp2
      · simp
      · intro c hc
        exact List.mem_cons_of_mem _ (ih hp2 c hc)
    · unfold splitNlL at hp
      rw [if_neg hx] at hp
      cases hs : splitNlL r with
      | nil => exact absurd hs (splitNlL_ne_nil r)
      | cons q qs =>
        rw [hs] at hp
        have hp' : p = x :: q ∨ p ∈ qs := by simpa using hp
        rcases hp' with rfl | hp2
        · intro c hc
          rcases List.mem_cons.mp hc with rfl | hc2
          · exact List.mem_cons_self _ _
          · have hq : q ∈ splitNlL r := by
              rw [hs]
              exact List.mem_cons_self _ _
            exact List.mem_cons_of_mem _ (ih hq c hc2)
        · intro c hc
          have hpr : p ∈ splitNlL r := by
            rw [hs]
            exact List.mem_cons_of_mem _ hp2
          exact List.mem_cons_of_mem _ (ih hpr c hc)

theorem stepLine_blank {st : PState} {s : String} (h : pyStripL s.data = []) :
    stepLine st s = some st := by
  unfold stepLine
  simp [h]

theorem processL_id {ls : List String}
    (h : ∀ s ∈ ls, ∀ st : PState, stepLine st s = some st) :
    ∀ st : PState, processL st ls = some st := by
  induction ls with
  | nil => intro st; rfl
  | cons l ls ih =>
    intro st
    unfold processL
    rw [h l (List.mem_cons_self _ _) st]
    exact ih (fun s hs st' => h s (List.mem_cons_of_mem _ hs) st') st

/-- Claim C1 (status: code_bug).  The claim says a detail line carrying a
number-unit pair yields the dosage string number-space-unit.  The source
interpolates `number_pattern`, whose own parenthesised fraction shifts the
group numbering, so `group(2)` is the decimal fraction and the formatting
branches never see the unit: `take 500 mg` leaves the dosage at the
default, and `2.5 mg` produces the number joined with its own fraction. -/
theorem c1_group_shift_eval :
    parse_medicine_details "Amox\ntake 500 mg" =
      some [⟨"Amox", "Not specified", "Not specified"⟩] ∧
    parse_medicine_details "Amox\n2.5 mg" =
      some [⟨"Amox", "2.5 .5", "Not specified"⟩] := by
  constructor <;> decide

/-- Claim C2 (status: code_bug).  The claim says a number immediately
followed by a frequency keyword yields the frequency string
number-space-keyword.  The source tests the substring `times` against
`group(2)`, the decimal-fraction capture of the interpolated number
pattern, which is `None` for an integer number, so the scan raises a
`TypeError` (modelled as `none`) on the very line the claim describes. -/
theorem c2_freq_crash_eval :
    parse_medicine_details "Amox\n2 daily" = none := by
  decide

/-- Claim C3 (status: corrected), counterexample.  The claimed record for
the input is wrong: the unit-qualified dosage sits on the name line, where
the classifier strips it into the name, and the triplet maps positionally,
so neither the claimed dosage nor the claimed frequency is produced. -/
theorem c3_counterexample :
    parse_medicine_details "Paracetamol 500 mg\n1-0-1" ≠
      some [⟨"Paracetamol", "500 mg", "Morning: 1, Afternoon: 1, Night: 0"⟩] := by
  decide

/-- Claim C3 (status: corrected), amended.  Parsing the two-line input
returns exactly one record: the name line loses its trailing dosage
fragment, the detail line's bare digit is accepted by the bare-number
fallback as the dosage, and the triplet maps positionally. -/
theorem c3_amended_eval :
    parse_medicine_details "Paracetamol 500 mg\n1-0-1" =
      some [⟨"Paracetamol", "1", "Morning: 1, Afternoon: 0, Night: 1"⟩] := by
  decide

/-- Claim C5 (status: corrected), counterexample.  A single-space input is
non-empty before trimming and produces zero records, yet the parser
returns the empty sequence, not the sentinel: the fallback guard tests the
trimmed text. -/
theorem c5_counterexample :
    " " ≠ "" ∧ processL initState (linesOf " ") = some initState ∧
    parse_medicine_details " " = some [] ∧
    parse_medicine_details " " ≠ some [sentinelRec] := by
  refine ⟨by decide, by decide, by decide, by decide⟩

/-- Claim C5 (status: corrected), amended.  If the input text is non-empty
after trimming whitespace and processing all lines produces zero records,
the parser returns exactly the sentinel record. -/
theorem c5_sentinel (t : String) (st : PState)
    (h1 : processL initState (linesOf t) = some st) (h2 : st.recs = [])
    (h3 : pyStripL t.data ≠ []) :
    parse_medicine_details t = some [sentinelRec] := by
  have h3' : (pyStripL t.data).isEmpty = false := by
    simpa [List.isEmpty_iff] using h3
  unfold parse_medicine_details
  rw [h1]
  simp [h2, h3']

/-- Witness for the amended C5 theorem at a concrete input. -/
theorem c5_sentinel_witness :
    parse_medicine_details "hello world" = some [sentinelRec] :=
  c5_sentinel "hello world" initState (by decide) (by decide) (by decide)

/-- Claim C6 (status: confirmed).  An input that is empty or consists only
of whitespace yields the empty record sequence and no sentinel: every line
strips to nothing and is skipped, and the sentinel guard on the stripped
text fails. -/
theorem c6_whitespace_empty (t : String) (h : ∀ c ∈ t.data, isPySpace c = true) :
    parse_medicine_details t = some [] := by
  have hstep : ∀ s ∈ linesOf t, ∀ st : PState, stepLine st s = some st := by
    intro s hs st
    apply stepLine_blank
    apply pyStripL_eq_nil_of_all_space
    intro c hc
    simp only [linesOf, List.mem_map] at hs
    obtain ⟨p, hp, rfl⟩ := hs
    exact h c (mem_splitNlL_subset hp c hc)
  unfold parse_medicine_details
  rw [processL_id hstep initState]
  simp [initState, pyStripL_eq_nil_of_all_space h]

/-- Witness for the C6 theorem at a concrete whitespace-only input. -/
theorem c6_whitespace_empty_witness :
    parse_medicine_details " \t\n " = some [] :=
  c6_whitespace_empty " \t\n " (by decide)

theorem pendingTruthy_some {o : Option String} (h : pendingTruthy o = true) :
    ∃ nm, o = some nm := by
  cases o with
  | none => simp [pendingTruthy] at h
  | some s => exact ⟨s, rfl⟩

theorem xyzAt_third {cs a b c : List Char} (h : xyzAt cs = some (a, b, c)) :
    c ≠ [] ∧ ∀ x ∈ c, isDigitC x = true := by
  simp only [xyzAt] at h
  repeat' split at h
  all_goals try exact Option.noConfusion h
  next h3 hb =>
    injection h with h'
    injection h' with h1 h'
    injection h' with h2 h3eq
    subst h3eq
    constructor
    · simpa [List.isEmpty_iff] using h3
    · intro x hx
      exact List.mem_takeWhile_imp hx

theorem xyzAux_third {lw a b c : List Char} :
    ∀ {prevW : Bool}, xyzAux prevW lw = some (a, b, c) →
      c ≠ [] ∧ ∀ x ∈ c, isDigitC x = true := by
  induction lw with
  | nil => intro prevW h; exact Option.noConfusion h
  | cons x r ih =>
    intro prevW h
    simp only [xyzAux] at h
    split at h
    · cases hx : xyzAt (x :: r) with
      | none => rw [hx] at h; exact ih h
      | some t =>
        rw [hx] at h
        injection h with h'
        subst h'
        exact xyzAt_third hx
    · exact ih h

theorem xyzScan_third {lw a b c : List Char} (h : xyzScan lw = some (a, b, c)) :
    c ≠ [] ∧ ∀ x ∈ c, isDigitC x = true :=
  xyzAux_third h

theorem frequencyOf_xyz {lw a b c : List Char} (hx : xyzScan lw = some (a, b, c)) :
    frequencyOf lw =
      some ("Morning: ".data ++ a ++ ", Afternoon: ".data ++ b ++
        ", Night: ".data ++ c) := by
  unfold frequencyOf
  rw [hx]

theorem reverse_append_last {pre c : List Char} {y : Char} {ys : List Char}
    (hy : c.reverse = y :: ys) : (pre ++ c).reverse = y :: (ys ++ pre.reverse) := by
  rw [List.reverse_append, hy]
  rfl

theorem pyStrip_fmt {a b c : List Char} (hc : c ≠ [])
    (hcd : ∀ x ∈ c, isDigitC x = true) :
    pyStripL ("Morning: ".data ++ a ++ ", Afternoon: ".data ++ b ++
        ", Night: ".data ++ c) =
      "Morning: ".data ++ a ++ ", Afternoon: ".data ++ b ++ ", Night: ".data ++ c := by
  have hrc : c.reverse ≠ [] := by simpa using hc
  obtain ⟨y, ys, hy⟩ := List.exists_cons_of_ne_nil hrc
  have hyc : y ∈ c := by
    rw [← List.mem_reverse, hy]
    exact List.mem_cons_self _ _
  apply pyStripL_noop
  · refine ⟨'M', "orning: ".data ++ a ++ ", Afternoon: ".data ++ b ++ ", Night: ".data ++ c, ?_, by decide⟩
    simp [List.append_assoc]
  · refine ⟨y, ys ++ ("Morning: ".data ++ a ++ ", Afternoon: ".data ++ b ++ ", Night: ".data).reverse, ?_, digit_not_space (hcd y hyc)⟩
    exact reverse_append_last hy

/-- Claim C7 (status: confirmed).  Records only ever grow by pairing the
pending name with the current detail line, after which the pending name is
cleared; a line classified as a name line emits no record and overwrites
the pending name, so a name line never followed by a detail line (in
particular the first of two consecutive name lines) produces no record. -/
theorem c7_pairing (st st' : PState) (l : String) (h : stepLine st l = some st') :
    (st'.recs = st.recs ∨
      ∃ nm d f, st.pending = some nm ∧
        st'.recs = st.recs ++ [⟨String.mk (pyStripL nm.data), d, f⟩] ∧
        st'.pending = none) ∧
    (isNameLineB (pyStripL l.data) (lowerL (pyStripL l.data)) = true →
      phoneSearch (pyStripL l.data) = false →
      st'.recs = st.recs ∧
        st'.pending = some (String.mk (nameClean (pyStripL l.data)))) := by
  simp only [stepLine] at h
  by_cases h0 : (pyStripL l.data).isEmpty = true
  · rw [if_pos h0] at h
    cases h
    refine ⟨Or.inl rfl, fun hn _ => ?_⟩
    exfalso
    have he : pyStripL l.data = [] := by simpa [List.isEmpty_iff] using h0
    rw [he] at hn
    simp [isNameLineB, nameShape] at hn
  · rw [if_neg h0] at h
    by_cases hp : phoneSearch (pyStripL l.data) = true
    · rw [if_pos hp] at h
      cases h
      exact ⟨Or.inl rfl, fun _ hpf => by simp [hpf] at hp⟩
    · rw [if_neg hp] at h
      by_cases hn : isNameLineB (pyStripL l.data) (lowerL (pyStripL l.data)) = true
      · rw [if_pos hn] at h
        cases h
        exact ⟨Or.inl rfl, fun _ _ => ⟨rfl, rfl⟩⟩
      · rw [if_neg hn] at h
        split at h
        · exact Option.noConfusion h
        · next freq hfeq =>
            by_cases hpt : pendingTruthy st.pending = true
            · rw [if_pos hpt] at h
              obtain ⟨nm, hnm⟩ := pendingTruthy_some hpt
              cases h
              refine ⟨Or.inr ⟨nm,
                String.mk (pyStripL (dosageOf (pendingTruthy st.pending) (lowerL (pyStripL l.data)))),
                String.mk (pyStripL freq), hnm, ?_, rfl⟩, fun hnn _ => absurd hnn hn⟩
              simp [hnm]
            · rw [if_neg hpt] at h
              cases h
              exact ⟨Or.inl rfl, fun hnn _ => absurd hnn hn⟩

/-- Witness for the C7 theorem at a concrete step: a second name line
overwrites the pending name and emits nothing. -/
theorem c7_pairing_witness :
    (⟨some "Bcd", ([] : List MedicineRecord)⟩ : PState).recs = (⟨some "Amox", []⟩ : PState).recs ∧
    (⟨some "Bcd", ([] : List MedicineRecord)⟩ : PState).pending =
      some (String.mk (nameClean (pyStripL "Bcd".data))) := by
  have h := c7_pairing ⟨some "Amox", []⟩ ⟨some "Bcd", []⟩ "Bcd" (by decide)
  exact ⟨(h.2 (by decide) (by decide)).1, (h.2 (by decide) (by decide)).2⟩

/-- Claim C4 (status: confirmed).  When the hyphen-triplet pattern matches
the lowered detail line with captured integers a, b and c, any record the
step emits carries the frequency string mapping them positionally: the
first to Morning, the second to Afternoon, the third to Night, each
reproduced verbatim. -/
theorem c4_triplet (st st' : PState) (l : String) (a b c : List Char)
    (h : stepLine st l = some st')
    (hx : xyzScan (lowerL (pyStripL l.data)) = some (a, b, c)) :
    st'.recs = st.recs ∨
      ∃ nm d, st'.recs = st.recs ++
        [⟨nm, d, String.mk ("Morning: ".data ++ a ++ ", Afternoon: ".data ++ b ++
          ", Night: ".data ++ c)⟩] := by
  simp only [stepLine] at h
  by_cases h0 : (pyStripL l.data).isEmpty = true
  · rw [if_pos h0] at h
    cases h
    exact Or.inl rfl
  · rw [if_neg h0] at h
    by_cases hp : phoneSearch (pyStripL l.data) = true
    · rw [if_pos hp] at h
      cases h
      exact Or.inl rfl
    · rw [if_neg hp] at h
      by_cases hn : isNameLineB (pyStripL l.data) (lowerL (pyStripL l.data)) = true
      · rw [if_pos hn] at h
        cases h
        exact Or.inl rfl
      · rw [if_neg hn] at h
        split at h
        · exact Option.noConfusion h
        · next freq hfeq =>
            have hfe := frequencyOf_xyz hx
            rw [hfeq] at hfe
            have hfreq := Option.some.inj hfe
            subst hfreq
            by_cases hpt : pendingTruthy st.pending = true
            · rw [if_pos hpt] at h
              cases h
              refine Or.inr ⟨String.mk (pyStripL (st.pending.getD "").data),
                String.mk (pyStripL (dosageOf (pendingTruthy st.pending) (lowerL (pyStripL l.data)))), ?_⟩
              obtain ⟨hcne, hcd⟩ := xyzScan_third hx
              rw [pyStrip_fmt hcne hcd]
            · rw [if_neg hpt] at h
              cases h
              exact Or.inl rfl

/-- Witness for the C4 theorem at a concrete step. -/
theorem c4_triplet_witness :
    (⟨none, [⟨"Amox", "1", "Morning: 1, Afternoon: 0, Night: 1"⟩]⟩ : PState).recs =
        (⟨some "Amox", []⟩ : PState).recs ∨
      ∃ nm d, (⟨none, [⟨"Amox", "1", "Morning: 1, Afternoon: 0, Night: 1"⟩]⟩ : PState).recs =
        (⟨some "Amox", []⟩ : PState).recs ++
          [⟨nm, d, String.mk ("Morning: ".data ++ "1".data ++ ", Afternoon: ".data ++
            "0".data ++ ", Night: ".data ++ "1".data)⟩] :=
  c4_triplet ⟨some "Amox", []⟩ ⟨none, [⟨"Amox", "1", "Morning: 1, Afternoon: 0, Night: 1"⟩]⟩
    "1-0-1" "1".data "0".data "1".data (by decide) (by decide)

theorem takeWhile_digit_head {cs : List Char}
    (h : ¬(cs.takeWhile isDigitC).isEmpty = true) :
    ∃ c t, cs.takeWhile isDigitC = c :: t ∧ isDigitC c = true := by
  cases hq : cs.takeWhile isDigitC with
  | nil => rw [hq] at h; simp at h
  | cons c t =>
    refine ⟨c, t, rfl, ?_⟩
    exact List.mem_takeWhile_imp (hq ▸ List.mem_cons_self c t)

theorem head_digit_append {d m : List Char} {c : Char} {t : List Char}
    (hdt : d = c :: t) (hdc : isDigitC c = true) :
    ∃ c2 t2, d ++ m = c2 :: t2 ∧ isDigitC c2 = true :=
  ⟨c, t ++ m, by rw [hdt]; rfl, hdc⟩

theorem numAt_head {cs g1 : List Char} {g2 : Option (List Char)} {rest : List Char}
    (h : numAt cs = some (g1, g2, rest)) :
    ∃ c t, g1 = c :: t ∧ isDigitC c = true := by
  simp only [numAt] at h
  by_cases h1 : (cs.takeWhile isDigitC).isEmpty = true
  · rw [if_pos h1] at h
    exact Option.noConfusion h
  · rw [if_neg h1] at h
    obtain ⟨c, t, hdt, hdc⟩ := takeWhile_digit_head h1
    repeat' split at h
    all_goals try exact Option.noConfusion h
    all_goals simp only [Option.some.injEq, Prod.mk.injEq] at h
    all_goals obtain ⟨rfl, -⟩ := h
    all_goals first
      | exact ⟨c, t, hdt, hdc⟩
      | exact head_digit_append hdt hdc

theorem doseBranch1At_head {cs g1 g2 : List Char}
    (h : doseBranch1At cs = some (some (g1, g2))) :
    ∃ c t, g1 = c :: t ∧ isDigitC c = true := by
  simp only [doseBranch1At] at h
  split at h
  · exact Option.noConfusion h
  · next g1' g2' rest hnum =>
      split at h
      · split at h
        · simp only [Option.some.injEq, Prod.mk.injEq] at h
          obtain ⟨rfl, -⟩ := h
          exact numAt_head hnum
        · simp at h
      · exact Option.noConfusion h

theorem dosePrimAux_head {cs : List Char} :
    ∀ {prevW : Bool} {g1 g2 : List Char},
      dosePrimAux prevW cs = some (some (g1, g2)) →
        ∃ c t, g1 = c :: t ∧ isDigitC c = true := by
  induction cs with
  | nil => intro prevW g1 g2 h; exact Option.noConfusion h
  | cons x r ih =>
    intro prevW g1 g2 h
    simp only [dosePrimAux] at h
    split at h
    · next out hout =>
        injection h with h'
        subst h'
        by_cases hc : (!prevW && isDigitC x) = true
        · rw [if_pos hc] at hout
          exact doseBranch1At_head hout
        · rw [if_neg hc] at hout
          exact Option.noConfusion hout
    · split at h
      · simp at h
      · exact ih h

theorem numSearchAux_head {cs : List Char} :
    ∀ {prevW : Bool} {g1 : List Char} {g2 : Option (List Char)},
      numSearchAux prevW cs = some (g1, g2) →
        ∃ c t, g1 = c :: t ∧ isDigitC c = true := by
  induction cs with
  | nil => intro prevW g1 g2 h; exact Option.noConfusion h
  | cons x r ih =>
    intro prevW g1 g2 h
    simp only [numSearchAux] at h
    split at h
    · split at h
      · next g1' g2' rest hnum =>
          simp only [Option.some.injEq, Prod.mk.injEq] at h
          obtain ⟨rfl, -⟩ := h
          exact numAt_head hnum
      · exact ih h
    · exact ih h

theorem dosageOf_headNS (pt : Bool) (lw : List Char) : headNS (dosageOf pt lw) := by
  unfold dosageOf
  split
  · next g1 g2 hd =>
      obtain ⟨c, t, hg, hc⟩ := dosePrimAux_head hd
      rw [hg]
      exact ⟨c, _, rfl, digit_not_space hc⟩
  · exact ⟨'N', "ot specified".data, by decide, by decide⟩
  · split
    · next g1 g2 hn =>
        split
        · obtain ⟨c, t, hg, hc⟩ := numSearchAux_head hn
          rw [hg]
          exact ⟨c, _, rfl, digit_not_space hc⟩
        · exact ⟨'N', "ot specified".data, by decide, by decide⟩
    · exact ⟨'N', "ot specified".data, by decide, by decide⟩

theorem matchFragAt_none_head {u : List Char} {c : Char} {xs : List Char}
    (h1 : isPySpace c = false) (h2 : isDigitC c = false) :
    matchFragAt u (c :: xs) = none := by
  simp only [matchFragAt, dropSpaces]
  rw [List.dropWhile_cons_of_neg (by simp [h1]),
      List.takeWhile_cons_of_neg (by simp [h2])]
  simp

theorem subAux_cons_head {u : List Char} {c : Char} {xs : List Char} {n : Nat}
    (h1 : isPySpace c = false) (h2 : isDigitC c = false) :
    subAux u (n + 1) (c :: xs) = c :: subAux u n xs := by
  simp only [subAux, matchFragAt_none_head h1 h2]

theorem removePunct_cons {c : Char} {xs : List Char}
    (h : punctChars.contains c = false) :
    removePunct (c :: xs) = c :: removePunct xs := by
  have hm : c ∉ punctChars := by simpa using h
  simp [removePunct, List.filter_cons, hm]

theorem nameClean_head {l : List Char} (h : nameShape l = true) :
    ∃ c t, nameClean l = c :: t ∧ isUpperC c = true := by
  cases l with
  | nil => simp [nameShape] at h
  | cons c rest =>
    simp only [nameShape, Bool.and_eq_true] at h
    obtain ⟨⟨hc, -⟩, -⟩ := h
    have hcs : isPySpace c = false := upper_not_space hc
    have hcd : isDigitC c = false := upper_not_digit hc
    have hrp : removePunct (c :: rest) = c :: removePunct rest :=
      removePunct_cons (upper_not_punct hc)
    have hstrip : pyStripL (removePunct (c :: rest)) =
        c :: ((removePunct rest).reverse.dropWhile isPySpace).reverse := by
      rw [hrp]
      exact pyStripL_cons_head hcs
    simp only [nameClean]
    rw [hstrip]
    split
    · next u hf =>
        have hsub : subUnitAll u
            (c :: ((removePunct rest).reverse.dropWhile isPySpace).reverse) =
            c :: subAux u ((removePunct rest).reverse.dropWhile isPySpace).reverse.length
              ((removePunct rest).reverse.dropWhile isPySpace).reverse := by
          unfold subUnitAll
          rw [List.length_cons]
          exact subAux_cons_head hcs hcd
        rw [hsub, pyStripL_cons_head hcs]
        exact ⟨c, _, rfl, hc⟩
    · exact ⟨c, _, rfl, hc⟩

theorem stepLine_inv {st st' : PState} {l : String} (h : stepLine st l = some st')
    (hok : StOK st) : StOK st' := by
  simp only [stepLine] at h
  by_cases h0 : (pyStripL l.data).isEmpty = true
  · rw [if_pos h0] at h
    cases h
    exact hok
  · rw [if_neg h0] at h
    by_cases hp : phoneSearch (pyStripL l.data) = true
    · rw [if_pos hp] at h
      cases h
      exact hok
    · rw [if_neg hp] at h
      by_cases hn : isNameLineB (pyStripL l.data) (lowerL (pyStripL l.data)) = true
      · rw [if_pos hn] at h
        cases h
        refine ⟨hok.1, ?_⟩
        intro nm hnm
        have hns : nameShape (pyStripL l.data) = true := by
          simp only [isNameLineB, Bool.and_eq_true] at hn
          exact hn.1
        obtain ⟨c, t, hct, hcu⟩ := nameClean_head hns
        injection hnm with hnm'
        refine ⟨c, t, ?_, upper_not_space hcu⟩
        rw [← hnm']
        exact hct
      · rw [if_neg hn] at h
        split at h
        · exact Option.noConfusion h
        · next freq hfeq =>
            by_cases hpt : pendingTruthy st.pending = true
            · rw [if_pos hpt] at h
              obtain ⟨nm, hnm⟩ := pendingTruthy_some hpt
              cases h
              refine ⟨?_, fun nm2 h2 => Option.noConfusion h2⟩
              intro r hr
              rw [List.mem_append] at hr
              rcases hr with hr | hr
              · exact hok.1 r hr
              · simp only [List.mem_singleton] at hr
                subst hr
                constructor
                · apply string_mk_ne_empty
                  apply pyStripL_ne_nil_of_headNS
                  rw [hnm]
                  exact hok.2 nm hnm
                · apply string_mk_ne_empty
                  apply pyStripL_ne_nil_of_headNS
                  exact dosageOf_headNS _ _
            · rw [if_neg hpt] at h
              cases h
              exact ⟨hok.1, hok.2⟩

theorem processL_inv : ∀ {ls : List String} {st st' : PState},
    processL st ls = some st' → StOK st → StOK st' := by
  intro ls
  induction ls with
  | nil =>
    intro st st' h hok
    cases h
    exact hok
  | cons l ls ih =>
    intro st st' h hok
    simp only [processL] at h
    split at h
    · exact Option.noConfusion h
    · next st1 hst1 => exact ih h (stepLine_inv hst1 hok)

/-- Claim C8 (status: confirmed).  Every record in a returned sequence has
a non-empty name; the sentinel record can only ever appear as the sole
element of the result, and only when the input text is non-empty and the
line loop produced zero records. -/
theorem c8_nonempty_names (t : String) (ms : List MedicineRecord)
    (h : parse_medicine_details t = some ms) :
    (∀ r ∈ ms, r.name ≠ "") ∧
    (sentinelRec ∈ ms →
      ms = [sentinelRec] ∧ t ≠ "" ∧
        ∃ st, processL initState (linesOf t) = some st ∧ st.recs = []) := by
  unfold parse_medicine_details at h
  split at h
  · exact Option.noConfusion h
  · next st hp =>
    have hok : StOK st :=
      processL_inv hp ⟨fun r hr => absurd hr (List.not_mem_nil r),
        fun nm h2 => Option.noConfusion h2⟩
    by_cases hg : (st.recs.isEmpty && !(pyStripL t.data).isEmpty) = true
    · rw [if_pos hg] at h
      injection h with h'
      subst h'
      constructor
      · intro r hr
        simp only [List.mem_singleton] at hr
        subst hr
        decide
      · intro _
        refine ⟨rfl, ?_, st, hp, ?_⟩
        · intro ht
          subst ht
          have hnil : pyStripL ("" : String).data = [] := rfl
          rw [hnil] at hg
          simp at hg
        · exact List.isEmpty_iff.mp ((Bool.and_eq_true _ _).mp hg).1
    · rw [if_neg hg] at h
      injection h with h'
      subst h'
      refine ⟨fun r hr => (hok.1 r hr).1, ?_⟩
      intro hs
      exfalso
      exact (hok.1 sentinelRec hs).2 rfl

/-- Witness for the C8 theorem at a concrete input whose only record is
the sentinel. -/
theorem c8_nonempty_names_witness : sentinelRec.name ≠ "" :=
  (c8_nonempty_names "hello" [sentinelRec] (by decide)).1 sentinelRec
    (List.mem_cons_self _ _)

theorem mem_afterOptChar {t : Char} {cs r : List Char} :
    r ∈ afterOptChar t cs ↔ ∃ p, OptTok t p ∧ cs = p ++ r := by
  cases cs with
  | nil =>
    constructor
    · intro h
      have hr : r = [] := by simpa [afterOptChar] using h
      subst hr
      exact ⟨[], Or.inl rfl, rfl⟩
    · rintro ⟨p, hp, he⟩
      rcases hp with rfl | rfl
      · simp only [List.nil_append] at he
        subst he
        simp [afterOptChar]
      · exact absurd he (by simp)
  | cons c cs2 =>
    by_cases hc : c = t
    · constructor
      · intro h
        have h2 : r = cs2 ∨ r = c :: cs2 := by
          simpa [afterOptChar, if_pos hc] using h
        rcases h2 with rfl | rfl
        · exact ⟨[c], Or.inr (by rw [hc]), rfl⟩
        · exact ⟨[], Or.inl rfl, rfl⟩
      · rintro ⟨p, hp, he⟩
        rcases hp with rfl | rfl
        · simp only [List.nil_append] at he
          subst he
          simp [afterOptChar, if_pos hc]
        · rw [List.singleton_append] at he
          injection he with h1 h2
          subst h2
          simp [afterOptChar, if_pos hc]
    · constructor
      · intro h
        have hr : r = c :: cs2 := by simpa [afterOptChar, if_neg hc] using h
        subst hr
        exact ⟨[], Or.inl rfl, rfl⟩
      · rintro ⟨p, hp, he⟩
        rcases hp with rfl | rfl
        · simp only [List.nil_append] at he
          subst he
          simp [afterOptChar, if_neg hc]
        · exfalso
          rw [List.singleton_append] at he
          injection he with h1 h2
          exact hc h1

theorem mem_afterOptSep {cs r : List Char} :
    r ∈ afterOptSep cs ↔ ∃ p, SepOptP p ∧ cs = p ++ r := by
  cases cs with
  | nil =>
    constructor
    · intro h
      have hr : r = [] := by simpa [afterOptSep] using h
      subst hr
      exact ⟨[], Or.inl rfl, rfl⟩
    · rintro ⟨p, hp, he⟩
      rcases hp with rfl | ⟨d, rfl, hd⟩
      · simp only [List.nil_append] at he
        subst he
        simp [afterOptSep]
      · exact absurd he (by simp)
  | cons c cs2 =>
    by_cases hc : isSepC c = true
    · constructor
      · intro h
        have h2 : r = cs2 ∨ r = c :: cs2 := by
          simpa [afterOptSep, if_pos hc] using h
        rcases h2 with rfl | rfl
        · exact ⟨[c], Or.inr ⟨c, rfl, hc⟩, rfl⟩
        · exact ⟨[], Or.inl rfl, rfl⟩
      · rintro ⟨p, hp, he⟩
        rcases hp with rfl | ⟨d, rfl, hd⟩
        · simp only [List.nil_append] at he
          subst he
          simp [afterOptSep, if_pos hc]
        · rw [List.singleton_append] at he
          injection he with h1 h2
          subst h2
          simp [afterOptSep, if_pos hc]
    · constructor
      · intro h
        have hr : r = c :: cs2 := by simpa [afterOptSep, if_neg hc] using h
        subst hr
        exact ⟨[], Or.inl rfl, rfl⟩
      · rintro ⟨p, hp, he⟩
        rcases hp with rfl | ⟨d, rfl, hd⟩
        · simp only [List.nil_append] at he
          subst he
          simp [afterOptSep, if_neg hc]
        · exfalso
          rw [List.singleton_append] at he
          injection he with h1 h2
          rw [h1] at hc
          exact hc hd

theorem exactDigits_some : ∀ {n : Nat} {cs r : List Char},
    exactDigits n cs = some r ↔ ∃ d, GrpP n d ∧ cs = d ++ r := by
  intro n
  induction n with
  | zero =>
    intro cs r
    simp only [exactDigits, Option.some.injEq]
    constructor
    · rintro rfl
      exact ⟨[], ⟨rfl, by simp⟩, rfl⟩
    · rintro ⟨d, ⟨hlen, -⟩, he⟩
      have hd : d = [] := List.length_eq_zero.mp hlen
      subst hd
      simpa using he
  | succ n ih =>
    intro cs r
    cases cs with
    | nil =>
      simp only [exactDigits]
      constructor
      · intro h
        exact Option.noConfusion h
      · rintro ⟨d, ⟨hlen, -⟩, he⟩
        exfalso
        have hl := congrArg List.length he
        simp [hlen] at hl
        omega
    | cons c cs2 =>
      simp only [exactDigits]
      by_cases hc : isDigitC c = true
      · rw [if_pos hc, ih]
        constructor
        · rintro ⟨d, ⟨hlen, hdig⟩, he⟩
          refine ⟨c :: d, ⟨?_, ?_⟩, ?_⟩
          · simp [hlen]
          · intro x hx
            rcases List.mem_cons.mp hx with rfl | hx2
            · exact hc
            · exact hdig x hx2
          · rw [he]
            rfl
        · rintro ⟨d, ⟨hlen, hdig⟩, he⟩
          cases d with
          | nil => simp at hlen
          | cons d0 d2 =>
            rw [List.cons_append] at he
            injection he with h1 h2
            subst h1
            refine ⟨d2, ⟨by simpa using hlen, fun x hx => hdig x (List.mem_cons_of_mem _ hx)⟩, h2⟩
      · rw [if_neg hc]
        constructor
        · intro h
          exact Option.noConfusion h
        · rintro ⟨d, ⟨hlen, hdig⟩, he⟩
          cases d with
          | nil => simp at hlen
          | cons d0 d2 =>
            rw [List.cons_append] at he
            injection he with h1 h2
            exact absurd (h1 ▸ hdig d0 (List.mem_cons_self _ _)) hc

theorem mem_digits1to3 {cs r : List Char} :
    r ∈ digits1to3 cs ↔
      ∃ d, 1 ≤ d.length ∧ d.length ≤ 3 ∧ (∀ c ∈ d, isDigitC c = true) ∧ cs = d ++ r := by
  simp only [digits1to3, List.mem_filterMap]
  constructor
  · rintro ⟨n, hn, he⟩
    obtain ⟨d, ⟨hlen, hdig⟩, hcs⟩ := exactDigits_some.mp he
    have hn13 : n = 1 ∨ n = 2 ∨ n = 3 := by simpa using hn
    subst hlen
    refine ⟨d, ?_, ?_, hdig, hcs⟩ <;> rcases hn13 with h | h | h <;> omega
  · rintro ⟨d, h1, h3, hdig, hcs⟩
    refine ⟨d.length, ?_, exactDigits_some.mpr ⟨d, ⟨rfl, hdig⟩, hcs⟩⟩
    have hd : d.length = 1 ∨ d.length = 2 ∨ d.length = 3 := by omega
    rcases hd with h | h | h <;> rw [h] <;> simp

theorem mem_ccOptions {cs r : List Char} :
    r ∈ ccOptions cs ↔ ∃ p, CCPartP p ∧ cs = p ++ r := by
  simp only [ccOptions, List.mem_cons, List.mem_flatMap]
  constructor
  · rintro (rfl | ⟨a, ha, b, hb, hr⟩)
    · exact ⟨[], Or.inl rfl, rfl⟩
    · obtain ⟨pl, hpl, hcs⟩ := mem_afterOptChar.mp ha
      obtain ⟨d, hd1, hd3, hdig, ha2⟩ := mem_digits1to3.mp hb
      obtain ⟨sp, hsp, hb2⟩ := mem_afterOptSep.mp hr
      refine ⟨pl ++ (d ++ sp), Or.inr ⟨pl, d, sp, hpl, hd1, hd3, hdig, hsp, rfl⟩, ?_⟩
      rw [hcs, ha2, hb2]
      simp [List.append_assoc]
  · rintro ⟨p, hp, hcs⟩
    rcases hp with rfl | ⟨pl, d, sp, hpl, hd1, hd3, hdig, hsp, rfl⟩
    · exact Or.inl (by simpa using hcs.symm)
    · right
      have hcs2 : cs = pl ++ (d ++ (sp ++ r)) := by
        rw [hcs]
        simp [List.append_assoc]
      exact ⟨d ++ (sp ++ r), mem_afterOptChar.mpr ⟨pl, hpl, hcs2⟩, sp ++ r,
        mem_digits1to3.mpr ⟨d, hd1, hd3, hdig, rfl⟩, mem_afterOptSep.mpr ⟨sp, hsp, rfl⟩⟩

theorem boundaryOkB_iff {g : List Char} : boundaryOkB g = true ↔ BoundaryP g := by
  cases g with
  | nil => simp [boundaryOkB, BoundaryP]
  | cons c r =>
    constructor
    · intro h
      refine Or.inr ⟨c, r, rfl, ?_⟩
      simpa [boundaryOkB] using h
    · rintro (he | ⟨c2, r2, he, hw⟩)
      · exact absurd he (by simp)
      · injection he with h1 h2
        subst h1
        simpa [boundaryOkB] using hw

theorem phoneTailAt_iff {cs : List Char} : phoneTailAt cs = true ↔ TailAtP cs := by
  simp only [phoneTailAt, List.any_eq_true]
  constructor
  · rintro ⟨a, ha, h2⟩
    obtain ⟨op, hop, hcs⟩ := mem_afterOptChar.mp ha
    split at h2
    · exact absurd h2 (by simp)
    · next b hd1 =>
      simp only [List.any_eq_true] at h2
      obtain ⟨c1, hc1, d1, hd1m, h4⟩ := h2
      obtain ⟨cp, hcp, hb⟩ := mem_afterOptChar.mp hc1
      obtain ⟨s1, hs1, hc1e⟩ := mem_afterOptSep.mp hd1m
      split at h4
      · exact absurd h4 (by simp)
      · next e he3 =>
        simp only [List.any_eq_true] at h4
        obtain ⟨f, hf, h5⟩ := h4
        obtain ⟨s2, hs2, he2⟩ := mem_afterOptSep.mp hf
        split at h5
        · exact absurd h5 (by simp)
        · next g hg4 =>
          obtain ⟨g1, hg1, ha2⟩ := exactDigits_some.mp hd1
          obtain ⟨g2, hg2, hd2⟩ := exactDigits_some.mp he3
          obtain ⟨g3, hg3, hf2⟩ := exactDigits_some.mp hg4
          exact ⟨op, a, hop, hcs, g1, b, hg1, ha2, cp, c1, hcp, hb, s1, d1, hs1, hc1e,
            g2, e, hg2, hd2, s2, f, hs2, he2, g3, g, hg3, hf2, boundaryOkB_iff.mp h5⟩
  · rintro ⟨op, r1, hop, hcs, g1, r2, hg1, hr1, cp, r3, hcp, hr2, s1, r4, hs1, hr3,
      g2, r5, hg2, hr4, s2, r6, hs2, hr5, g3, rest, hg3, hr6, hbd⟩
    refine ⟨r1, mem_afterOptChar.mpr ⟨op, hop, hcs⟩, ?_⟩
    rw [exactDigits_some.mpr ⟨g1, hg1, hr1⟩]
    refine List.any_eq_true.mpr ⟨r3, mem_afterOptChar.mpr ⟨cp, hcp, hr2⟩, ?_⟩
    refine List.any_eq_true.mpr ⟨r4, mem_afterOptSep.mpr ⟨s1, hs1, hr3⟩, ?_⟩
    rw [exactDigits_some.mpr ⟨g2, hg2, hr4⟩]
    refine List.any_eq_true.mpr ⟨r6, mem_afterOptSep.mpr ⟨s2, hs2, hr5⟩, ?_⟩
    rw [exactDigits_some.mpr ⟨g3, hg3, hr6⟩]
    exact boundaryOkB_iff.mpr hbd

theorem phoneMatchAt_iff {cs : List Char} : phoneMatchAt cs = true ↔ PhoneAtP cs := by
  simp only [phoneMatchAt, List.any_eq_true]
  constructor
  · rintro ⟨r, hr, ht⟩
    obtain ⟨cc, hcc, hcs⟩ := mem_ccOptions.mp hr
    exact ⟨cc, r, hcc, hcs, phoneTailAt_iff.mp ht⟩
  · rintro ⟨cc, r, hcc, hcs, ht⟩
    exact ⟨r, mem_ccOptions.mpr ⟨cc, hcc, hcs⟩, phoneTailAt_iff.mpr ht⟩

theorem phoneSearch_iff {cs : List Char} :
    phoneSearch cs = true ↔ ∃ pre suf, cs = pre ++ suf ∧ phoneMatchAt suf = true := by
  induction cs with
  | nil =>
    simp only [phoneSearch]
    constructor
    · intro h
      exact ⟨[], [], rfl, h⟩
    · rintro ⟨pre, suf, he, h⟩
      obtain ⟨rfl, rfl⟩ := List.append_eq_nil.mp he.symm
      exact h
  | cons c r ih =>
    simp only [phoneSearch, Bool.or_eq_true, ih]
    constructor
    · rintro (h | ⟨pre, suf, he, h⟩)
      · exact ⟨[], c :: r, rfl, h⟩
      · exact ⟨c :: pre, suf, by rw [he]; rfl, h⟩
    · rintro ⟨pre, suf, he, h⟩
      cases pre with
      | nil =>
        left
        obtain rfl : suf = c :: r := by simpa using he.symm
        exact h
      | cons p ps =>
        right
        rw [List.cons_append] at he
        injection he with h1 h2
        exact ⟨ps, suf, h2, h⟩

/-- Claim C9 (status: corrected), counterexample.  The line `1234567890a`
contains the phone shape exactly as the claim words it (three digit groups
of sizes three, three and four, empty optional separators, no country code
or parentheses), yet the filter does not exclude it: the pattern's final
word boundary fails before the trailing letter. -/
theorem c9_counterexample :
    ContainsPhoneShapeNoB "1234567890a".data ∧
    is_likely_phone_number "1234567890a" = false := by
  constructor
  · exact ⟨[], [], [], "123".data, [], [], "456".data, [], "7890".data, "a".data,
      Or.inl rfl, Or.inl rfl, ⟨by decide, by decide⟩, Or.inl rfl, Or.inl rfl,
      ⟨by decide, by decide⟩, Or.inl rfl, ⟨by decide, by decide⟩, by decide⟩
  · decide

/-- Claim C9 (status: corrected), amended.  A non-empty trimmed line is
excluded from all further processing exactly when it contains, anywhere as
a substring, the phone shape (optional country code of an optional plus
and one to three digits with an optional single separator, an optional
opening parenthesis, three digits, an optional closing parenthesis, an
optional single separator, three digits, an optional single separator,
four digits) whose final digit group is followed by a word boundary, that
is, not immediately followed by a letter, digit or underscore. -/
theorem c9_phone_filter (st : PState) (l : String) :
    (is_likely_phone_number (String.mk (pyStripL l.data)) = true ↔
      ContainsPhoneShape (pyStripL l.data)) ∧
    (pyStripL l.data ≠ [] → phoneSearch (pyStripL l.data) = true →
      stepLine st l = some st) := by
  constructor
  · show phoneSearch (pyStripL l.data) = true ↔ _
    rw [phoneSearch_iff]
    unfold ContainsPhoneShape
    constructor
    · rintro ⟨pre, suf, he, h⟩
      exact ⟨pre, suf, he, phoneMatchAt_iff.mp h⟩
    · rintro ⟨pre, suf, he, h⟩
      exact ⟨pre, suf, he, phoneMatchAt_iff.mpr h⟩
  · intro hne hp
    simp only [stepLine]
    rw [if_neg (by simpa [List.isEmpty_iff] using hne), if_pos hp]

/-- Witness for the amended C9 theorem: a line holding a phone number is
skipped, leaving the loop state untouched. -/
theorem c9_phone_filter_witness :
    stepLine initState " 555 123 4567 " = some initState :=
  (c9_phone_filter initState " 555 123 4567 ").2 (by decide) (by decide)

theorem containsRun334_phoneSearch {cs : List Char} (h : ContainsRun334 cs) :
    phoneSearch cs = true := by
  obtain ⟨pre, suf, hcs, g1, s1, g2, s2, g3, rest, hg1, hs1, hg2, hs2, hg3, hbd, hsuf⟩ := h
  rw [phoneSearch_iff]
  refine ⟨pre, suf, hcs, phoneMatchAt_iff.mpr ?_⟩
  refine ⟨[], suf, Or.inl rfl, rfl, ?_⟩
  exact ⟨[], suf, Or.inl rfl, rfl, g1, s1 ++ (g2 ++ (s2 ++ (g3 ++ rest))), hg1, hsuf,
    [], s1 ++ (g2 ++ (s2 ++ (g3 ++ rest))), Or.inl rfl, rfl,
    s1, g2 ++ (s2 ++ (g3 ++ rest)), hs1, rfl,
    g2, s2 ++ (g3 ++ rest), hg2, rfl,
    s2, g3 ++ rest, hs2, rfl,
    g3, rest, hg3, rfl, hbd⟩

/-- Claim C10 (status: corrected), amended.  A line containing, anywhere
as a substring, a run of three digits, three digits and four digits with
single optional separators between the groups, where the four-digit group
is not immediately followed by a letter, digit or underscore, is matched
by the phone filter and skipped entirely: it contributes neither a name
nor a record, the loop state is unchanged. -/
theorem c10_run334 (st : PState) (l : String)
    (h : ContainsRun334 (pyStripL l.data)) :
    is_likely_phone_number (String.mk (pyStripL l.data)) = true ∧
      stepLine st l = some st := by
  have hps : phoneSearch (pyStripL l.data) = true := containsRun334_phoneSearch h
  have hne : pyStripL l.data ≠ [] := by
    obtain ⟨pre, suf, hcs, g1, s1, g2, s2, g3, rest, hg1, -, -, -, -, -, hsuf⟩ := h
    intro hnil
    rw [hnil] at hcs
    obtain ⟨-, hsnil⟩ := List.append_eq_nil.mp hcs.symm
    rw [hsnil] at hsuf
    obtain ⟨hg1nil, -⟩ := List.append_eq_nil.mp hsuf.symm
    rw [hg1nil] at hg1
    exact absurd hg1.1 (by decide)
  refine ⟨hps, ?_⟩
  simp only [stepLine]
  rw [if_neg (by simpa [List.isEmpty_iff] using hne), if_pos hps]

/-- Witness for the amended C10 theorem: a dosage-free line holding a
bounded three-three-four digit run is skipped as a phone number. -/
theorem c10_run334_witness :
    is_likely_phone_number (String.mk (pyStripL "ring 555 123 4567".data)) = true ∧
      stepLine initState "ring 555 123 4567" = some initState :=
  c10_run334 initState "ring 555 123 4567"
    ⟨"ring ".data, "555 123 4567".data, by decide,
      "555".data, [' '], "123".data, [' '], "4567".data, [],
      ⟨by decide, by decide⟩, Or.inr ⟨' ', rfl, by decide⟩, ⟨by decide, by decide⟩,
      Or.inr ⟨' ', rfl, by decide⟩, ⟨by decide, by decide⟩, Or.inl rfl, by decide⟩

/-- Claim C10 (status: corrected), counterexample.  The line `5551234567x`
contains a three-three-four digit run with empty separators, exactly as
the claim words it, yet the filter does not discard it: processed as a
detail line with a pending name it emits a record, because the pattern's
final word boundary fails before the trailing letter. -/
theorem c10_counterexample :
    ContainsRun334NoB "5551234567x".data ∧
    is_likely_phone_number "5551234567x" = false ∧
    stepLine ⟨some "Amox", []⟩ "5551234567x" =
      some ⟨none, [⟨"Amox", "Not specified", "Not specified"⟩]⟩ := by
  refine ⟨⟨[], "555".data, [], "123".data, [], "4567".data, "x".data,
    ⟨by decide, by decide⟩, Or.inl rfl, ⟨by decide, by decide⟩, Or.inl rfl,
    ⟨by decide, by decide⟩, by decide⟩, by decide, by decide⟩
